import Mathlib

/-!
Verification development for the stonksfish bot.

This file gives a shallow embedding of the core subsystems of the repository:

* the speculative branch explorer (`src/whatif.rs`): `generate_branch_tree`,
  `expand_node`, `rank_moves`, `terminal_reason`, `extract_pv`;
* the per-game session state machine (`src/lichess/game_manager.rs`): one
  step of `play_game`'s event loop, with outward effects reified as actions
  and the result of the move submission supplied as an input;
* the session orchestrator (`src/lichess/mod.rs`): one step of
  `LichessBot::run`'s event dispatch.

The board representation, move generation, the evaluator
(`engine::evaluation::simple::evaluate_board`), the move chooser
(`Bot::choose_move`) and the phase/piece helpers of `uci.rs` live in the
external `chess` crate or depend on its board type; they are abstracted as
an oracle (`WhatifEnv` / the extra fields of `SessionEnv`): every theorem
below holds for an arbitrary oracle, hence in particular for the real one.

Machine integers: `u8`/`u32`/`usize` counters are modelled as `Nat`
(`max_depth` is a `u8`, but depths never exceed `max_depth ≤ 255`, so no
wrap occurs; the one place where `u8` wrap is reachable — the
`rank as u8 * 2` cast in the selective-deepening reduction — is modelled
explicitly with `% 256`).  Evaluations (`i32`) are modelled as `Int`;
their arithmetic stays far from the `i32` boundaries for any evaluator the
repository ships, and no claim concerns overflow there.
-/

namespace Stonksfish

/-- Configuration for what-if branching (struct `BranchConfig`, whatif.rs). -/
structure BranchConfig where
  max_depth : Nat
  width : Nat
  ordering_depth : Nat
  selective_deepening : Bool
  node_budget : Nat
  prune_threshold : Int
deriving DecidableEq, Inhabited

/-- `BranchConfig::quick()` (whatif.rs). -/
def BranchConfig.quick : BranchConfig :=
  { max_depth := 8, width := 2, ordering_depth := 2, selective_deepening := true,
    node_budget := 500, prune_threshold := 300 }

/-- `BranchConfig::deep()` (whatif.rs). -/
def BranchConfig.deep : BranchConfig :=
  { max_depth := 32, width := 3, ordering_depth := 4, selective_deepening := true,
    node_budget := 50000, prune_threshold := 800 }

/-- A node in the what-if branching tree (struct `BranchNode`, whatif.rs). -/
structure BranchNode where
  branch_id : String
  fen : String
  move_uci : Option String
  depth : Nat
  eval_cp : Int
  phase : String
  piece_count : Nat
  is_terminal : Bool
  terminal_reason : Option String
  parent_id : Option String
  children : List String
  fork_id : String
deriving DecidableEq, Inhabited

/-- Result of what-if branching (struct `BranchTree`, whatif.rs). -/
structure BranchTree where
  root_fen : String
  nodes : List BranchNode
  config : BranchConfig
  total_nodes : Nat
  max_depth_reached : Nat
  principal_variation : List String
deriving DecidableEq, Inhabited

/-- The game oracle: the external `chess` crate (board representation, FEN
parsing/printing, legal move generation, move application, check
detection), the external evaluator `evaluate_board`, and the helpers
`format_move` / `classify_phase` / `count_pieces` of `uci.rs` (which
compute over the external board type).  `legalMoves` returns the moves in
`MoveGen::new_legal`'s enumeration order. -/
structure WhatifEnv (Pos : Type) (Mv : Type) where
  fromFen : String → Option Pos
  toFen : Pos → String
  legalMoves : Pos → List Mv
  makeMove : Pos → Mv → Pos
  evaluateBoard : Pos → Int
  formatMove : Mv → String
  classifyPhase : Pos → String
  countPieces : Pos → Nat
  inCheck : Pos → Bool

variable {Pos Mv : Type}

/-- `terminal_reason` (whatif.rs): checkmate/stalemate classification.
`inCheck p` models `board.checkers().popcnt() > 0`. -/
def terminal_reason (e : WhatifEnv Pos Mv) (p : Pos) : Option String :=
  if (e.legalMoves p).isEmpty then
    if e.inCheck p then some "checkmate" else some "stalemate"
  else none

/-- Insert into a list kept in descending evaluation order; an incoming
element goes after every already-present element whose evaluation is at
least as large.  Used to model Rust's stable `sort_by(|a, b| b.1.cmp(&a.1))`:
a stable sort for a total preorder has a unique result, so this insertion
sort produces exactly the vector the Rust sort produces. -/
def insertByEvalDesc (x : Mv × Int) : List (Mv × Int) → List (Mv × Int)
  | [] => [x]
  | y :: ys => if x.2 < y.2 then y :: insertByEvalDesc x ys else x :: y :: ys

/-- Stable descending sort by evaluation (see `insertByEvalDesc`). -/
def sortByEvalDesc : List (Mv × Int) → List (Mv × Int)
  | [] => []
  | x :: xs => insertByEvalDesc x (sortByEvalDesc xs)

/-- `rank_moves` (whatif.rs): evaluate the position after each legal move
(single ply, negated to the mover's perspective) and sort descending.
The `config` parameter is accepted and unused, exactly as in the source. -/
def rank_moves (e : WhatifEnv Pos Mv) (board : Pos) (_config : BranchConfig) :
    List (Mv × Int) :=
  let moves := (e.legalMoves board).map
    (fun chess_move => (chess_move, -(e.evaluateBoard (e.makeMove board chess_move))))
  sortByEvalDesc moves

/-- Index into the node arena.  `Vec` indexing in the source panics when out
of range; every access performed by the algorithm is in range, and the
default value is never produced on those accesses. -/
def getNode (t : BranchTree) (i : Nat) : BranchNode :=
  (t.nodes[i]?).getD default

/-- The derived configuration used when recursing into the child at
position `rank` of a node's appended-children list (`expand_node`,
whatif.rs lines 271-276).  `rank as u8 * 2` is a `u8` cast followed by `u8`
multiplication, hence the `% 256`; `saturating_sub` on `u8` is `Nat`
truncated subtraction. -/
def deriveChildConfig (cfg : BranchConfig) (rank : Nat) : BranchConfig :=
  if cfg.selective_deepening ∧ 0 < rank then
    { cfg with max_depth := cfg.max_depth - (2 * (rank % 256)) % 256,
               width := max cfg.width 1 }
  else cfg

/-- The candidate loop of `expand_node` (whatif.rs lines 221-260): walk the
ranked candidates, breaking when the node budget is reached, skipping
(beyond rank 0) candidates whose evaluation swing exceeds the prune
threshold when selective deepening is on, and appending one child node per
surviving candidate.  Returns the updated tree, the updated fork counter,
and the `child_indices` list of (arena index, resulting board) pairs. -/
def expandChildrenLoop (e : WhatifEnv Pos Mv) (cfg : BranchConfig) (board : Pos)
    (parentId : String) (parentEval : Int) (currentDepth : Nat) :
    List (Mv × Int) → Nat → BranchTree → Nat → BranchTree × Nat × List (Nat × Pos)
  | [], _, t, k => (t, k, [])
  | (chess_move, _) :: rest, rank, t, k =>
    if cfg.node_budget ≤ t.total_nodes then (t, k, [])
    else
      let newBoard := e.makeMove board chess_move
      let moveStr := e.formatMove chess_move
      let childEval := -(e.evaluateBoard newBoard)
      if cfg.selective_deepening ∧ cfg.prune_threshold < |childEval - parentEval| ∧ 0 < rank then
        expandChildrenLoop e cfg board parentId parentEval currentDepth rest (rank + 1) t k
      else
        let childNode : BranchNode :=
          { branch_id := parentId ++ "-" ++ moveStr
            fen := e.toFen newBoard
            move_uci := some moveStr
            depth := currentDepth + 1
            eval_cp := childEval
            phase := e.classifyPhase newBoard
            piece_count := e.countPieces newBoard
            is_terminal := (e.legalMoves newBoard).isEmpty
            terminal_reason := terminal_reason e newBoard
            parent_id := some parentId
            children := []
            fork_id := "fork-" ++ toString k }
        let childIdx := t.nodes.length
        let t' : BranchTree :=
          { t with nodes := t.nodes ++ [childNode], total_nodes := t.total_nodes + 1 }
        match expandChildrenLoop e cfg board parentId parentEval currentDepth rest
            (rank + 1) t' (k + 1) with
        | (tOut, kOut, restIdx) => (tOut, kOut, (childIdx, newBoard) :: restIdx)

/-- The recursion loop of `expand_node` (whatif.rs lines 270-278): expand
each appended child with the config derived from its position in the
`child_indices` list. -/
def expandRecurseLoop (step : BranchTree → Nat → Pos → BranchConfig → Nat → BranchTree × Nat)
    (cfg : BranchConfig) :
    List (Nat × Pos) → Nat → BranchTree → Nat → BranchTree × Nat
  | [], _, t, k => (t, k)
  | ci :: rest, rank, t, k =>
    match step t ci.1 ci.2 (deriveChildConfig cfg rank) k with
    | (t1, k1) => expandRecurseLoop step cfg rest (rank + 1) t1 k1

/-- `expand_node` (whatif.rs).  The extra `fuel` argument makes the
recursion structural; the caller passes `config.max_depth + 1`, which never
runs out: every recursive call is on a node one ply deeper with one unit
less fuel, a node at depth `d` is only created while `d - 1` is below the
(monotonically non-increasing) current `max_depth`, and a node whose depth
reaches its `max_depth` returns before recursing. -/
def expand_node (e : WhatifEnv Pos Mv) :
    Nat → BranchTree → Nat → Pos → BranchConfig → Nat → BranchTree × Nat
  | 0, t, _, _, _, k => (t, k)
  | fuel + 1, t, node_idx, board, cfg, k =>
    let current_depth := (getNode t node_idx).depth
    if cfg.max_depth ≤ current_depth then (t, k)
    else if cfg.node_budget ≤ t.total_nodes then (t, k)
    else if (getNode t node_idx).is_terminal then (t, k)
    else
      let candidates := rank_moves e board cfg
      let width := min candidates.length cfg.width
      let parent_id := (getNode t node_idx).branch_id
      let parent_eval := (getNode t node_idx).eval_cp
      match expandChildrenLoop e cfg board parent_id parent_eval current_depth
          (candidates.take width) 0 t k with
      | (t1, k1, child_indices) =>
        let child_ids := child_indices.map (fun ci => (getNode t1 ci.1).branch_id)
        let updatedParent : BranchNode := { getNode t1 node_idx with children := child_ids }
        let t2 : BranchTree := { t1 with nodes := t1.nodes.set node_idx updatedParent }
        expandRecurseLoop (fun ta i b c ka => expand_node e fuel ta i b c ka)
          cfg child_indices 0 t2 k1

/-- The walk of `extract_pv` (whatif.rs): follow each node's first child by
id lookup, collecting `move_uci` of every node stepped into.  The Rust
`loop` needs no fuel: each step moves to a node whose path-encoded id is
strictly longer, so the walk visits pairwise distinct nodes; fuel
`nodes.length + 1` therefore reproduces it exactly. -/
def extract_pv_aux (t : BranchTree) : Nat → Nat → List String
  | 0, _ => []
  | fuel + 1, current_idx =>
    match (getNode t current_idx).children with
    | [] => []
    | best_child_id :: _ =>
      match t.nodes.findIdx? (fun n => n.branch_id == best_child_id) with
      | none => []
      | some child_idx =>
        match (getNode t child_idx).move_uci with
        | some m => m :: extract_pv_aux t fuel child_idx
        | none => extract_pv_aux t fuel child_idx

/-- `extract_pv` (whatif.rs): principal variation, starting from the root
at index 0. -/
def extract_pv (t : BranchTree) : List String :=
  extract_pv_aux t (t.nodes.length + 1) 0

/-- `generate_branch_tree` (whatif.rs): parse the FEN (returning `none` on
failure), build the root node, expand recursively, then fill in the
principal variation and the maximum depth reached. -/
def generate_branch_tree (e : WhatifEnv Pos Mv) (fen : String) (config : BranchConfig) :
    Option BranchTree :=
  match e.fromFen fen with
  | none => none
  | some root_board =>
    let root_eval := e.evaluateBoard root_board
    let root_node : BranchNode :=
      { branch_id := "root"
        fen := fen
        move_uci := none
        depth := 0
        eval_cp := root_eval
        phase := e.classifyPhase root_board
        piece_count := e.countPieces root_board
        is_terminal := (e.legalMoves root_board).isEmpty
        terminal_reason := terminal_reason e root_board
        parent_id := none
        children := []
        fork_id := "fork-root" }
    let tree1 : BranchTree :=
      { root_fen := fen, nodes := [root_node], config := config, total_nodes := 1,
        max_depth_reached := 0, principal_variation := [] }
    match expand_node e (config.max_depth + 1) tree1 0 root_board config 1 with
    | (tree2, _) =>
      some { tree2 with
              principal_variation := extract_pv tree2
              max_depth_reached := ((tree2.nodes.map (fun n => n.depth)).max?).getD 0 }

/-- A toy game oracle used to exercise the algorithm on concrete inputs:
positions are naturals, position `p < 2` has exactly one legal move leading
to `p + 1`, a FEN is a string of `p` letters `a`.  All theorems below are
proved for an arbitrary oracle; this instance only feeds their witnesses. -/
def toyWE : WhatifEnv Nat Unit where
  fromFen s := some s.data.length
  toFen p := String.mk (List.replicate p 'a')
  legalMoves p := if p < 2 then [()] else []
  makeMove p _ := p + 1
  evaluateBoard _ := 0
  formatMove _ := "m"
  classifyPhase _ := "opening"
  countPieces _ := 2
  inCheck _ := false

/-! ## The per-game session state machine (`src/lichess/game_manager.rs`) -/

/-- `chess::Color`. -/
inductive Color where
  | white
  | black
deriving DecidableEq

/-- `format!("{:?}", bot_color)` on `chess::Color`. -/
def colorDebugStr : Color → String
  | .white => "White"
  | .black => "Black"

/-- `str::to_lowercase`, modelled characterwise (the usernames compared in
the source are ASCII, where the two coincide). -/
def lowerStr (s : String) : String :=
  String.mk (s.data.map Char.toLower)

/-- `str::split_whitespace`: split on whitespace, discarding empty pieces. -/
def splitWsAux : List Char → List Char → List String → List String
  | [], cur, acc =>
    if cur.isEmpty then acc.reverse else (String.mk cur.reverse :: acc).reverse
  | c :: rest, cur, acc =>
    if c.isWhitespace then
      if cur.isEmpty then splitWsAux rest [] acc
      else splitWsAux rest [] (String.mk cur.reverse :: acc)
    else splitWsAux rest (c :: cur) acc

/-- See `splitWsAux`. -/
def splitWhitespace (s : String) : List String :=
  splitWsAux s.data [] []

/-- `harvest::MoveRecord`.  `think_time_ms` is wall-clock time around the
oracle call in the source; the model records 0 (no claim concerns it). -/
structure MoveRecord where
  move_number : Nat
  side : String
  uci : String
  fen_before : String
  eval_cp : Int
  phase : String
  piece_count : Nat
  think_time_ms : Nat
  is_book : Bool
  alternatives : Nat
deriving DecidableEq

/-- `harvest::GameRecord`.  `started_at` is a wall-clock timestamp in the
source; the model records 0. -/
structure GameRecord where
  game_id : String
  white : String
  black : String
  result : String
  bot_color : String
  moves : List MoveRecord
  started_at : Nat
deriving DecidableEq

/-- `GameRecord::new` (harvest/mod.rs). -/
def GameRecord.new (gid : String) : GameRecord :=
  { game_id := gid, white := "", black := "", result := "", bot_color := "",
    moves := [], started_at := 0 }

/-- The capabilities `play_game` consumes, beyond the `WhatifEnv` oracle:
`chess::Game` (a board plus move history; `G`), `Game::current_position`,
`Game::make_move` (returns `false` and leaves the game unchanged on an
illegal move — modelled as `none`), `ChessMove::from_str`,
`Game::side_to_move`, and the engine's `Bot::choose_move`. -/
structure SessionEnv (G B Mv : Type) where
  we : WhatifEnv B Mv
  initGame : G
  currentPosition : G → B
  tryMove : G → Mv → Option G
  parseMove : String → Option Mv
  sideToMove : G → Color
  chooseMove : B → Mv

/-- The local mutable state of one `play_game` task: the `game` mirror, the
bot's assigned color, the accumulating `GameRecord`, and the `move_number`
counter. -/
structure SessionState (G : Type) where
  game : G
  bot_color : Color
  game_record : GameRecord
  move_number : Nat
deriving DecidableEq

/-- Initial session state (`play_game` lines 39-43; `bot_color` starts as
`Color::White`). -/
def initSession (env : SessionEnv G B Mv) (gid : String) : SessionState G :=
  { game := env.initGame, bot_color := .white, game_record := GameRecord.new gid,
    move_number := 0 }

/-- One event of the per-game stream (`licheszter`'s `BoardState`):
`GameFull` carries the two player identities (`none` models a
non-`LightUser` challenger), `GameState` carries the authoritative move
list string and the status. -/
inductive BoardState where
  | gameFull (white : Option String) (black : Option String)
  | gameState (moves : String) (status : String)
  | other

/-- Outward effects of one step of `play_game`, reified: move submission
(`client.make_move`), the two harvest calls, and the two diagnostics the
claims mention (the `error!` after a failed submission in the incremental
path, and the `warn!` for an unparseable newest move).  Results of the
harvest calls are logged and ignored by the source and are not modelled. -/
inductive OutCall where
  | submitMove (uci : String)
  | logMoveSendError (uci : String)
  | recordGame (r : GameRecord)
  | recordBranchTree (t : BranchTree)
  | logParseWarning (s : String)
deriving DecidableEq

/-- How one step of `play_game`'s event loop ends: keep waiting for the
next per-game event (`cont`), leave the loop on a terminal status
(`stop`), or return `Err` from `play_game` itself (`fail` — this happens
only via the `?` on the first-move submission, line 113). -/
inductive StepOutcome (G : Type) where
  | cont (st : SessionState G)
  | stop (st : SessionState G)
  | fail
deriving DecidableEq

/-- Rebuild the game from scratch (`play_game` lines 147-152): replay the
entire authoritative move list from the initial position, skipping
unparseable encodings and ignoring failed applications. -/
def replayAll (env : SessionEnv G B Mv) (moveList : List String) : G :=
  moveList.foldl
    (fun g s =>
      match env.parseMove s with
      | some m => (env.tryMove g m).getD g
      | none => g)
    env.initGame

/-- `is_critical_position` (game_manager.rs). -/
def isCriticalPosition (we : WhatifEnv B Mv) (board : B) : Bool :=
  let eval := |we.evaluateBoard board|
  let pieces := we.countPieces board
  if (eval < 100 ∧ 10 < pieces ∧ pieces < 28) ∨ (200 < eval ∧ eval < 500 ∧ 14 < pieces)
  then true else false

/-- One step of `play_game`'s event loop (game_manager.rs lines 50-222):
process one `BoardState` event.  `submitOk` supplies the result of the
outward `client.make_move` call, should one be made during this step. -/
def stepSession (env : SessionEnv G B Mv) (whatifEnabled : Bool) (botUsername : String)
    (submitOk : Bool) (st : SessionState G) (ev : BoardState) :
    StepOutcome G × List OutCall :=
  match ev with
  | .gameFull white black =>
    let bot_color : Color :=
      match white with
      | some wname => if lowerStr wname = lowerStr botUsername then .white else .black
      | none => .black
    let names : String × String :=
      match white with
      | some w => (w, black.getD "unknown")
      | none => ("unknown", "unknown")
    let gr0 : GameRecord :=
      { st.game_record with white := names.1, black := names.2,
                            bot_color := colorDebugStr bot_color }
    let st1 : SessionState G := { st with bot_color := bot_color, game_record := gr0 }
    if bot_color = .white then
      let board := env.currentPosition st1.game
      let chosen := env.chooseMove board
      let uci := env.we.formatMove chosen
      let eval := env.we.evaluateBoard board
      let mr : MoveRecord :=
        { move_number := 1, side := "white", uci := uci,
          fen_before := env.we.toFen board, eval_cp := eval,
          phase := env.we.classifyPhase board, piece_count := env.we.countPieces board,
          think_time_ms := 0, is_book := false,
          alternatives := (env.we.legalMoves board).length }
      let st2 : SessionState G :=
        { st1 with game_record := { gr0 with moves := gr0.moves ++ [mr] } }
      if submitOk then (.cont st2, [.submitMove uci])
      else (.fail, [.submitMove uci])
    else (.cont st1, [])
  | .gameState movesStr status =>
    if status ≠ "started" then
      let gr : GameRecord := { st.game_record with result := status }
      (.stop { st with game_record := gr }, [.recordGame gr])
    else if movesStr = "" then (.cont st, [])
    else
      let moveList := splitWhitespace movesStr
      let moveNumber := moveList.length
      let lastMoveStr := moveList.getLast?.getD ""
      match env.parseMove lastMoveStr with
      | none => (.cont { st with move_number := moveNumber }, [.logParseWarning lastMoveStr])
      | some m =>
        let game1 : G :=
          match env.tryMove st.game m with
          | some g => g
          | none => replayAll env moveList
        let st1 : SessionState G := { st with game := game1, move_number := moveNumber }
        if env.sideToMove game1 = st.bot_color then
          let board := env.currentPosition game1
          if (env.we.legalMoves board).length = 0 then (.cont st1, [])
          else
            let whatifActs : List OutCall :=
              if whatifEnabled ∧ isCriticalPosition env.we board then
                match generate_branch_tree env.we (env.we.toFen board) BranchConfig.quick with
                | some tree => [.recordBranchTree tree]
                | none => []
              else []
            let chosen := env.chooseMove board
            let uci := env.we.formatMove chosen
            let eval := env.we.evaluateBoard board
            let side := if st.bot_color = Color.white then "white" else "black"
            let mr : MoveRecord :=
              { move_number := moveNumber, side := side, uci := uci,
                fen_before := env.we.toFen board, eval_cp := eval,
                phase := env.we.classifyPhase board,
                piece_count := env.we.countPieces board, think_time_ms := 0,
                is_book := false, alternatives := (env.we.legalMoves board).length }
            let st2 : SessionState G :=
              { st1 with game_record :=
                  { st1.game_record with moves := st1.game_record.moves ++ [mr] } }
            if submitOk then (.cont st2, whatifActs ++ [.submitMove uci])
            else (.cont st2, whatifActs ++ [.submitMove uci, .logMoveSendError uci])
        else (.cont st1, [])
  | .other => (.cont st, [])

/-- True exactly on the move-submission action. -/
def isSubmitCall : OutCall → Bool
  | .submitMove _ => true
  | _ => false

/-! ## The session orchestrator (`src/lichess/mod.rs`) -/

/-- One event of the global stream (`licheszter`'s `Event`), with the
challenge payload kept abstract (`C`): the challenge-acceptance predicate
`challenge::should_accept` is an external collaborator evaluated on it. -/
inductive LiEvent (C : Type) where
  | challenge (c : C)
  | challengeCanceled (c : C)
  | gameStart (gameId : String)
  | gameFinish (gameId : String)
  | other

/-- The orchestrator's mutable state: the key set of the `active_games`
map (game id → task handle; handles are not modelled). -/
structure OrchState where
  active : List String
deriving DecidableEq

/-- Outward effects of one orchestrator step: challenge accept/decline
calls, spawning a session task, aborting one, and the harvest flush.
Failures of these calls are logged and ignored by the source. -/
inductive OrchAction where
  | declineChallenge (id : String)
  | acceptChallenge (id : String)
  | spawnGame (id : String)
  | abortGame (id : String)
  | flushHarvest
deriving DecidableEq

/-- `HashMap::insert` on the key set: a present key is replaced (set
unchanged), an absent one added. -/
def insertActive (l : List String) (k : String) : List String :=
  if k ∈ l then l else l ++ [k]

/-- One step of `LichessBot::run`'s event dispatch (mod.rs lines 132-231).
`shouldAccept` is the external `challenge::should_accept` predicate,
`challengeId` projects the challenge id. -/
def orchStep (maxConcurrentGames : Nat) (shouldAccept : C → Bool)
    (challengeId : C → String) (st : OrchState) (ev : LiEvent C) :
    OrchState × List OrchAction :=
  match ev with
  | .challenge c =>
    if maxConcurrentGames ≤ st.active.length then
      (st, [.declineChallenge (challengeId c)])
    else if shouldAccept c then (st, [.acceptChallenge (challengeId c)])
    else (st, [.declineChallenge (challengeId c)])
  | .gameStart gid =>
    ({ active := insertActive st.active gid }, [.spawnGame gid])
  | .gameFinish gid =>
    let acts := if gid ∈ st.active then [OrchAction.abortGame gid] else []
    ({ active := st.active.filter (fun x => x ≠ gid) }, acts ++ [.flushHarvest])
  | .challengeCanceled _ => (st, [])
  | .other => (st, [])

/-- A toy session environment over the toy oracle: the game state is the
toy position itself, move strings parse exactly when they are `"x"`, and
the side to move alternates with the position's parity. -/
def toySE : SessionEnv Nat Nat Unit where
  we := toyWE
  initGame := 0
  currentPosition g := g
  tryMove g _ := if g < 2 then some (g + 1) else none
  parseMove s := if s = "x" then some () else none
  sideToMove g := if g % 2 = 0 then .white else .black
  chooseMove _ := ()

/-! ## Invariant predicates for the branch tree -/

/-- The FEN round-trip law of the real `chess` crate: printing a board and
parsing the result gives the board back. -/
def HRT (e : WhatifEnv Pos Mv) : Prop :=
  ∀ p, e.fromFen (e.toFen p) = some p

/-- Forward referential integrity: every id in a node's `children` list is
the `branch_id` of a node of the tree whose `parent_id` is that node's
`branch_id`. -/
def IntegrityA (t : BranchTree) : Prop :=
  ∀ n ∈ t.nodes, ∀ cid ∈ n.children,
    ∃ m ∈ t.nodes, m.branch_id = cid ∧ m.parent_id = some n.branch_id

/-- Backward referential integrity: every non-root node (one carrying a
`parent_id`) points at a node of the tree whose `children` list contains
its `branch_id`. -/
def IntegrityB (t : BranchTree) : Prop :=
  ∀ n ∈ t.nodes, ∀ pid, n.parent_id = some pid →
    ∃ m ∈ t.nodes, m.branch_id = pid ∧ n.branch_id ∈ m.children

/-- Every node's FEN parses back to a position, and — when selective
deepening is off, so the config is never rewritten during recursion — its
child count is bounded by `min width legalMoveCount` and its depth by
`max_depth`. -/
def FenWidthDepth (e : WhatifEnv Pos Mv) (cfg : BranchConfig) (t : BranchTree) : Prop :=
  HRT e → ∀ n ∈ t.nodes, ∃ p, e.fromFen n.fen = some p ∧
    (cfg.selective_deepening = false →
      n.children.length ≤ min cfg.width (e.legalMoves p).length ∧ n.depth ≤ cfg.max_depth)

/-- The bundled invariant carried through `expand_node`'s recursion. -/
def TreeInv (e : WhatifEnv Pos Mv) (cfg : BranchConfig) (t : BranchTree) : Prop :=
  IntegrityA t ∧ IntegrityB t ∧ FenWidthDepth e cfg t

/-- What one run of the candidate loop (`expandChildrenLoop`) guarantees,
relating the input tree `t` to the output triple `out`. -/
structure ChildrenLoopOut (e : WhatifEnv Pos Mv) (cfg : BranchConfig) (parentId : String)
    (currentDepth : Nat) (cands : List (Mv × Int)) (rank : Nat) (t : BranchTree)
    (out : BranchTree × Nat × List (Nat × Pos)) : Prop where
  preserved : ∀ i, i < t.nodes.length → out.1.nodes[i]? = t.nodes[i]?
  len_mono : t.nodes.length ≤ out.1.nodes.length
  total_len : t.total_nodes = t.nodes.length → out.1.total_nodes = out.1.nodes.length
  total_bound : out.1.total_nodes ≤ max t.total_nodes cfg.node_budget
  count_le : out.2.2.length ≤ cands.length
  nodup : (out.2.2.map Prod.fst).Nodup
  mem_spec : ∀ ci ∈ out.2.2, t.nodes.length ≤ ci.1 ∧ ci.1 < out.1.nodes.length ∧
    ∃ nd, out.1.nodes[ci.1]? = some nd ∧ nd.fen = e.toFen ci.2 ∧ nd.children = [] ∧
      nd.parent_id = some parentId ∧ nd.depth = currentDepth + 1
  surj : ∀ i, t.nodes.length ≤ i → i < out.1.nodes.length → ∃ cb, (i, cb) ∈ out.2.2
  first_forced : cands ≠ [] → t.total_nodes < cfg.node_budget → rank = 0 → out.2.2 ≠ []

/-- The locality/accounting properties a recursion step must satisfy for
the recursion loop to preserve them: it can only grow the arena, only
rewrites the node it was pointed at, preserves `total_nodes =
nodes.length`, and respects the node budget (which every derived config
shares). -/
def StepBasic {Pos : Type} (budget : Nat)
    (step : BranchTree → Nat → Pos → BranchConfig → Nat → BranchTree × Nat) : Prop :=
  ∀ t idx b c k, c.node_budget = budget →
    t.nodes.length ≤ (step t idx b c k).1.nodes.length ∧
    (∀ i, i < t.nodes.length → i ≠ idx → (step t idx b c k).1.nodes[i]? = t.nodes[i]?) ∧
    (t.total_nodes = t.nodes.length →
      (step t idx b c k).1.total_nodes = (step t idx b c k).1.nodes.length) ∧
    (step t idx b c k).1.total_nodes ≤ max t.total_nodes budget

/-! ## Concrete instances used to exercise the theorems -/

/-- A config with zero budget and zero width. -/
def cfgC1 : BranchConfig := ⟨4, 0, 1, false, 0, 10000⟩

/-- The tree the explorer produces for it on the toy oracle. -/
def tC1 : BranchTree := (generate_branch_tree toyWE "" cfgC1).getD default

/-- A small flat-search config. -/
def cfgC2 : BranchConfig := ⟨3, 2, 1, false, 10, 1000⟩

/-- Its tree on the toy oracle. -/
def tC2 : BranchTree := (generate_branch_tree toyWE "" cfgC2).getD default

/-- A flat-search config with width 1. -/
def cfgC6 : BranchConfig := ⟨3, 1, 1, false, 10, 1000⟩

/-- Its tree on the toy oracle. -/
def tC6 : BranchTree := (generate_branch_tree toyWE "" cfgC6).getD default

/-- A config with width 0 but room in depth and budget. -/
def cfgC7 : BranchConfig := ⟨2, 0, 1, false, 10, 1000⟩

/-- Its tree on the toy oracle: only the root, although the root position
has a legal move and no stopping condition held. -/
def tC7 : BranchTree := (generate_branch_tree toyWE "" cfgC7).getD default

/-- A width-1 config for exercising the amended guarantee. -/
def cfgC7w : BranchConfig := ⟨2, 1, 1, false, 10, 1000⟩

/-- A one-node arena holding an expandable root. -/
def twC7 : BranchTree :=
  ⟨"", [⟨"root", "", none, 0, 0, "opening", 2, false, none, none, [], "fork-root"⟩],
    cfgC7w, 1, 0, []⟩

/-- A selective-deepening config whose depth reduction bottoms out. -/
def cfgC8 : BranchConfig := ⟨2, 2, 1, true, 100, 1000⟩

/-- A config with `max_depth = 0`. -/
def cfgC9 : BranchConfig := ⟨0, 2, 1, false, 10, 1000⟩

/-- Its tree on the toy oracle. -/
def tC9 : BranchTree := (generate_branch_tree toyWE "" cfgC9).getD default

/-- A flat-search config with a positive budget. -/
def cfgC10 : BranchConfig := ⟨3, 1, 1, false, 4, 1000⟩

/-- Its tree on the toy oracle. -/
def tC10 : BranchTree := (generate_branch_tree toyWE "" cfgC10).getD default

/-- A session state whose local game has diverged from the authoritative
stream: position 2 admits no move, so the newest move fails to apply. -/
def stC5 : SessionState Nat :=
  { game := 2, bot_color := .white, game_record := GameRecord.new "g", move_number := 0 }

/-! ## Basic lemmas -/

/-- The toy oracle satisfies the FEN round-trip law. -/
theorem toyWE_roundtrip : HRT toyWE := by
  intro p
  simp [toyWE, HRT, String.mk]

/-- Arena access agrees with `getElem?` on in-range indices. -/
theorem getNode_of_getElem? {t : BranchTree} {i : Nat} {n : BranchNode}
    (h : t.nodes[i]? = some n) : getNode t i = n := by
  simp [getNode, h]

/-- Insertion preserves length plus one. -/
theorem length_insertByEvalDesc (x : Mv × Int) (l : List (Mv × Int)) :
    (insertByEvalDesc x l).length = l.length + 1 := by
  induction l with
  | nil => rfl
  | cons y ys ih =>
    simp only [insertByEvalDesc]
    split <;> simp [ih]

/-- The stable sort preserves length. -/
theorem length_sortByEvalDesc (l : List (Mv × Int)) :
    (sortByEvalDesc l).length = l.length := by
  induction l with
  | nil => rfl
  | cons x xs ih => simp [sortByEvalDesc, length_insertByEvalDesc, ih]

/-- `rank_moves` returns one entry per legal move. -/
theorem length_rank_moves (e : WhatifEnv Pos Mv) (b : Pos) (cfg : BranchConfig) :
    (rank_moves e b cfg).length = (e.legalMoves b).length := by
  simp [rank_moves, length_sortByEvalDesc]

/-- Deriving a child config never touches the node budget. -/
theorem deriveChildConfig_node_budget (cfg : BranchConfig) (r : Nat) :
    (deriveChildConfig cfg r).node_budget = cfg.node_budget := by
  unfold deriveChildConfig
  split <;> rfl

/-- Deriving a child config never touches the selective-deepening flag. -/
theorem deriveChildConfig_selective (cfg : BranchConfig) (r : Nat) :
    (deriveChildConfig cfg r).selective_deepening = cfg.selective_deepening := by
  unfold deriveChildConfig
  split <;> rfl

/-- With selective deepening off the recursion config is the parent config. -/
theorem deriveChildConfig_sdFalse (cfg : BranchConfig) (r : Nat)
    (h : cfg.selective_deepening = false) : deriveChildConfig cfg r = cfg := by
  unfold deriveChildConfig
  rw [h]
  simp

/-- The tree invariant is indifferent to config derivation: its only
config-dependent component is guarded by `selective_deepening = false`, in
which case derivation is the identity. -/
theorem treeInv_derive_iff (e : WhatifEnv Pos Mv) (cfg : BranchConfig) (r : Nat)
    (t : BranchTree) : TreeInv e (deriveChildConfig cfg r) t ↔ TreeInv e cfg t := by
  cases hsd : cfg.selective_deepening with
  | false => rw [deriveChildConfig_sdFalse cfg r hsd]
  | true =>
    have hsd2 : (deriveChildConfig cfg r).selective_deepening = true := by
      rw [deriveChildConfig_selective, hsd]
    unfold TreeInv FenWidthDepth
    constructor
    all_goals
      rintro ⟨a, b, c⟩
      refine ⟨a, b, fun hr n hn => ?_⟩
      obtain ⟨p, hp, _⟩ := c hr n hn
      exact ⟨p, hp, by simp [hsd2, hsd]⟩

/-! ## The candidate loop -/

/-- Everything the candidate loop guarantees: it only appends, keeps the
count in step with the arena, respects the budget, and the returned
`child_indices` pairs point at exactly the appended nodes, which carry the
expected fen / empty children / parent id / depth. -/
theorem expandChildrenLoop_spec (e : WhatifEnv Pos Mv) (cfg : BranchConfig) (board : Pos)
    (parentId : String) (parentEval : Int) (currentDepth : Nat) :
    ∀ (cands : List (Mv × Int)) (rank : Nat) (t : BranchTree) (k : Nat),
      ChildrenLoopOut e cfg parentId currentDepth cands rank t
        (expandChildrenLoop e cfg board parentId parentEval currentDepth cands rank t k) := by
  intro cands
  induction cands with
  | nil =>
    intro rank t k
    have heq : expandChildrenLoop e cfg board parentId parentEval currentDepth
        [] rank t k = (t, k, []) := rfl
    rw [heq]
    exact ⟨fun i _ => rfl, le_refl _, fun h => h, le_max_left _ _, le_refl _, by simp,
      fun ci hci => absurd hci (List.not_mem_nil ci),
      fun i h1 h2 => by dsimp only at h2; omega,
      fun hc _ _ => absurd rfl hc⟩
  | cons cand rest ih =>
    rcases cand with ⟨mv, ev⟩
    intro rank t k
    by_cases hb : cfg.node_budget ≤ t.total_nodes
    · have heq : expandChildrenLoop e cfg board parentId parentEval currentDepth
          ((mv, ev) :: rest) rank t k = (t, k, []) := by
        simp only [expandChildrenLoop, if_pos hb]
      rw [heq]
      exact ⟨fun i _ => rfl, le_refl _, fun h => h, le_max_left _ _, Nat.zero_le _, by simp,
        fun ci hci => absurd hci (List.not_mem_nil ci),
        fun i h1 h2 => by dsimp only at h2; omega,
        fun _ hlt _ => absurd hb (by omega)⟩
    · by_cases hp : cfg.selective_deepening ∧
          cfg.prune_threshold < |-(e.evaluateBoard (e.makeMove board mv)) - parentEval| ∧
          0 < rank
      · have heq : expandChildrenLoop e cfg board parentId parentEval currentDepth
            ((mv, ev) :: rest) rank t k =
            expandChildrenLoop e cfg board parentId parentEval currentDepth rest
              (rank + 1) t k := by
          simp only [expandChildrenLoop, if_neg hb, if_pos hp]
        rw [heq]
        have S := ih (rank + 1) t k
        exact ⟨S.preserved, S.len_mono, S.total_len, S.total_bound,
          Nat.le_succ_of_le S.count_le, S.nodup, S.mem_spec, S.surj,
          fun _ _ hr0 => absurd (hr0 ▸ hp.2.2) (lt_irrefl 0)⟩
      · -- append branch
        set childNode : BranchNode :=
          { branch_id := parentId ++ "-" ++ e.formatMove mv
            fen := e.toFen (e.makeMove board mv)
            move_uci := some (e.formatMove mv)
            depth := currentDepth + 1
            eval_cp := -(e.evaluateBoard (e.makeMove board mv))
            phase := e.classifyPhase (e.makeMove board mv)
            piece_count := e.countPieces (e.makeMove board mv)
            is_terminal := (e.legalMoves (e.makeMove board mv)).isEmpty
            terminal_reason := terminal_reason e (e.makeMove board mv)
            parent_id := some parentId
            children := []
            fork_id := "fork-" ++ toString k } with hchild
        set t2 : BranchTree :=
          { t with nodes := t.nodes ++ [childNode], total_nodes := t.total_nodes + 1 }
          with ht2
        rcases hrec : expandChildrenLoop e cfg board parentId parentEval currentDepth rest
            (rank + 1) t2 (k + 1) with ⟨tO, kO, rO⟩
        have heq : expandChildrenLoop e cfg board parentId parentEval currentDepth
            ((mv, ev) :: rest) rank t k =
            (tO, kO, (t.nodes.length, e.makeMove board mv) :: rO) := by
          simp only [expandChildrenLoop, if_neg hb, if_neg hp]
          rw [← hchild, ← ht2, hrec]
        rw [heq]
        have S := ih (rank + 1) t2 (k + 1)
        rw [hrec] at S
        have ht2n : t2.nodes = t.nodes ++ [childNode] := rfl
        have ht2t : t2.total_nodes = t.total_nodes + 1 := rfl
        clear_value t2 childNode
        obtain ⟨Sp, Slm, Stl, Stb, Scl, Snd, Sms, Ssj, _⟩ := S
        dsimp only at Sp Slm Stl Stb Scl Snd Sms Ssj
        have hlen2 : t2.nodes.length = t.nodes.length + 1 := by
          rw [ht2n]
          simp
        refine ⟨?_, ?_, ?_, ?_, ?_, ?_, ?_, ?_, fun _ _ _ => List.cons_ne_nil _ _⟩ <;> dsimp only
        · intro i hi
          have h1 : tO.nodes[i]? = t2.nodes[i]? := Sp i (by omega)
          have h2 : t2.nodes[i]? = t.nodes[i]? := by
            rw [ht2n]
            exact List.getElem?_append_left hi
          simp only [h1, h2]
        · omega
        · intro h
          exact Stl (by omega)
        · have h3 : max t2.total_nodes cfg.node_budget = cfg.node_budget := by
            omega
          have h4 : cfg.node_budget ≤ max t.total_nodes cfg.node_budget := le_max_right _ _
          omega
        · simp only [List.length_cons]
          omega
        · simp only [List.map_cons, List.nodup_cons]
          constructor
          · simp only [List.mem_map]
            rintro ⟨ci, hci, hfst⟩
            have := (Sms ci hci).1
            omega
          · exact Snd
        · intro ci hci
          rcases List.mem_cons.mp hci with hh | hh
          · subst hh
            refine ⟨le_refl _, by omega, childNode, ?_, by rw [hchild], by rw [hchild],
              by rw [hchild], by rw [hchild]⟩
            have h1 : tO.nodes[t.nodes.length]? = t2.nodes[t.nodes.length]? :=
              Sp t.nodes.length (by omega)
            have h2 : t2.nodes[t.nodes.length]? = some childNode := by
              rw [ht2n]
              exact List.getElem?_concat_length t.nodes childNode
            simp only [h1, h2]
          · obtain ⟨hge, hlt, hnd⟩ := Sms ci hh
            exact ⟨by omega, hlt, hnd⟩
        · intro i h1 h2
          rcases Nat.eq_or_lt_of_le h1 with hh | hh
          · exact ⟨e.makeMove board mv, by rw [← hh]; exact List.mem_cons_self _ _⟩
          · obtain ⟨cb, hcb⟩ := Ssj i (by omega) h2
            exact ⟨cb, List.mem_cons_of_mem _ hcb⟩

/-! ## The recursion loop and locality of `expand_node` -/

/-- The recursion loop inherits the step's locality and accounting: it can
only grow the arena, only rewrites nodes it was pointed at, keeps the
count in step with the arena, and respects the shared budget. -/
theorem expandRecurseLoop_basic {Pos : Type}
    (step : BranchTree → Nat → Pos → BranchConfig → Nat → BranchTree × Nat)
    (cfg : BranchConfig) (hs : StepBasic cfg.node_budget step) :
    ∀ (l : List (Nat × Pos)) (rank : Nat) (t : BranchTree) (k : Nat),
      t.nodes.length ≤ (expandRecurseLoop step cfg l rank t k).1.nodes.length ∧
      (∀ i, i < t.nodes.length → i ∉ l.map Prod.fst →
        (expandRecurseLoop step cfg l rank t k).1.nodes[i]? = t.nodes[i]?) ∧
      (t.total_nodes = t.nodes.length →
        (expandRecurseLoop step cfg l rank t k).1.total_nodes =
          (expandRecurseLoop step cfg l rank t k).1.nodes.length) ∧
      (expandRecurseLoop step cfg l rank t k).1.total_nodes ≤
        max t.total_nodes cfg.node_budget := by
  intro l
  induction l with
  | nil =>
    intro rank t k
    exact ⟨le_refl _, fun i _ _ => rfl, fun h => h, le_max_left _ _⟩
  | cons ci rest ih =>
    intro rank t k
    rcases hstep : step t ci.1 ci.2 (deriveChildConfig cfg rank) k with ⟨t1, k1⟩
    have heq : expandRecurseLoop step cfg (ci :: rest) rank t k =
        expandRecurseLoop step cfg rest (rank + 1) t1 k1 := by
      simp only [expandRecurseLoop]
      rw [hstep]
    rw [heq]
    have hb := hs t ci.1 ci.2 (deriveChildConfig cfg rank) k
      (deriveChildConfig_node_budget cfg rank)
    rw [hstep] at hb
    dsimp only at hb
    obtain ⟨hb1, hb2, hb3, hb4⟩ := hb
    obtain ⟨ih1, ih2, ih3, ih4⟩ := ih (rank + 1) t1 k1
    refine ⟨le_trans hb1 ih1, ?_, fun h => ih3 (hb3 h), by omega⟩
    intro i hi hmem
    have hmem2 : i ≠ ci.1 ∧ i ∉ rest.map Prod.fst := by
      simp only [List.map_cons, List.mem_cons, not_or] at hmem
      exact hmem
    have e2 := ih2 i (by omega) hmem2.2
    have e1 := hb2 i hi hmem2.1
    rw [e2, e1]

/-- Unconditional locality and accounting of `expand_node`: the arena only
grows, only the expanded node and nodes appended after the call's start
are ever rewritten, `total_nodes` stays equal to the arena size, and the
total respects `max` of its starting value and the budget. -/
theorem expand_node_basic (e : WhatifEnv Pos Mv) :
    ∀ (fuel : Nat) (t : BranchTree) (idx : Nat) (board : Pos) (cfg : BranchConfig) (k : Nat),
      t.nodes.length ≤ (expand_node e fuel t idx board cfg k).1.nodes.length ∧
      (∀ i, i < t.nodes.length → i ≠ idx →
        (expand_node e fuel t idx board cfg k).1.nodes[i]? = t.nodes[i]?) ∧
      (t.total_nodes = t.nodes.length →
        (expand_node e fuel t idx board cfg k).1.total_nodes =
          (expand_node e fuel t idx board cfg k).1.nodes.length) ∧
      (expand_node e fuel t idx board cfg k).1.total_nodes ≤
        max t.total_nodes cfg.node_budget := by
  intro fuel
  induction fuel with
  | zero =>
    intro t idx board cfg k
    exact ⟨le_refl _, fun i _ _ => rfl, fun h => h, le_max_left _ _⟩
  | succ fuel ih =>
    intro t idx board cfg k
    by_cases h1 : cfg.max_depth ≤ (getNode t idx).depth
    · have heq : expand_node e (fuel + 1) t idx board cfg k = (t, k) := by
        simp only [expand_node, if_pos h1]
      rw [heq]
      exact ⟨le_refl _, fun i _ _ => rfl, fun h => h, le_max_left _ _⟩
    · by_cases h2 : cfg.node_budget ≤ t.total_nodes
      · have heq : expand_node e (fuel + 1) t idx board cfg k = (t, k) := by
          simp only [expand_node, if_neg h1, if_pos h2]
        rw [heq]
        exact ⟨le_refl _, fun i _ _ => rfl, fun h => h, le_max_left _ _⟩
      · by_cases h3 : (getNode t idx).is_terminal = true
        · have heq : expand_node e (fuel + 1) t idx board cfg k = (t, k) := by
            simp only [expand_node, if_neg h1, if_neg h2, if_pos h3]
          rw [heq]
          exact ⟨le_refl _, fun i _ _ => rfl, fun h => h, le_max_left _ _⟩
        · rcases hcl : expandChildrenLoop e cfg board (getNode t idx).branch_id
              (getNode t idx).eval_cp (getNode t idx).depth
              ((rank_moves e board cfg).take (min (rank_moves e board cfg).length cfg.width))
              0 t k with ⟨t1, k1, cis⟩
          set cids : List String := cis.map (fun ci => (getNode t1 ci.1).branch_id) with hcids
          set t2 : BranchTree :=
            { t1 with nodes := t1.nodes.set idx ({ getNode t1 idx with children := cids }) }
            with ht2def
          have heq : expand_node e (fuel + 1) t idx board cfg k =
              expandRecurseLoop (fun ta i b c ka => expand_node e fuel ta i b c ka)
                cfg cis 0 t2 k1 := by
            simp only [expand_node, if_neg h1, if_neg h2, if_neg h3]
            rw [hcl]
          rw [heq]
          have CL := expandChildrenLoop_spec e cfg board (getNode t idx).branch_id
            (getNode t idx).eval_cp (getNode t idx).depth
            ((rank_moves e board cfg).take (min (rank_moves e board cfg).length cfg.width))
            0 t k
          rw [hcl] at CL
          obtain ⟨Cp, Clm, Ctl, Ctb, Ccl, Cnd, Cms, Csj, Cff⟩ := CL
          dsimp only at Cp Clm Ctl Ctb Ccl Cnd Cms Csj Cff
          have ht2n : t2.nodes = t1.nodes.set idx ({ getNode t1 idx with children := cids }) :=
            rfl
          have ht2t : t2.total_nodes = t1.total_nodes := rfl
          clear_value t2
          have ht2len : t2.nodes.length = t1.nodes.length := by
            rw [ht2n]
            simp
          have hs : StepBasic cfg.node_budget
              (fun ta i b c ka => expand_node e fuel ta i b c ka) := by
            intro ta ia ba ca ka hca
            obtain ⟨j1, j2, j3, j4⟩ := ih ta ia ba ca ka
            rw [hca] at j4
            exact ⟨j1, j2, j3, j4⟩
          obtain ⟨R1, R2, R3, R4⟩ := expandRecurseLoop_basic _ cfg hs cis 0 t2 k1
          refine ⟨by omega, ?_, ?_, by omega⟩
          · intro i hi hne
            have hnotmem : i ∉ cis.map Prod.fst := by
              intro hcon
              obtain ⟨ci, hci, hfst⟩ := List.mem_map.mp hcon
              have := (Cms ci hci).1
              omega
            have e3 := R2 i (by omega) hnotmem
            have e2 : t2.nodes[i]? = t1.nodes[i]? := by
              rw [ht2n]
              exact List.getElem?_set_ne (fun hcon => hne hcon.symm)
            have e1 := Cp i hi
            rw [e3, e2, e1]
          · intro h
            refine R3 ?_
            rw [ht2t, ht2len]
            exact Ctl h

/-! ## Preservation of the tree invariant -/

/-- Membership in a list gives an index. -/
theorem mem_getElem? {α : Type} {l : List α} {a : α} (h : a ∈ l) :
    ∃ i : Nat, l[i]? = some a := by
  obtain ⟨n, hn⟩ := List.mem_iff_get.mp h
  exact ⟨n.1, by rw [List.getElem?_eq_getElem n.2]; simpa using hn⟩

/-- A successful index access is in range. -/
theorem lt_of_getElem? {α : Type} {l : List α} {i : Nat} {a : α} (h : l[i]? = some a) :
    i < l.length := by
  by_contra hc
  push_neg at hc
  rw [List.getElem?_eq_none hc] at h
  cases h

/-- On an in-range index, `getElem?` returns exactly the arena node. -/
theorem getElem?_getNode {t : BranchTree} {i : Nat} (h : i < t.nodes.length) :
    t.nodes[i]? = some (getNode t i) := by
  simp [getNode, List.getElem?_eq_getElem h]

/-- Lift a node of the starting arena into the arena after an update that
only rewrote the `children` of node `idx` (and appended): some node with
the same `branch_id` and `parent_id` survives, with the same `children`
unless the lifted node was the rewritten one. -/
theorem lift_mem {t t2 : BranchTree} {idx : Nat} {newIdxNode : BranchNode}
    (hidx : idx < t.nodes.length)
    (hpres : ∀ i, i < t.nodes.length → i ≠ idx → t2.nodes[i]? = t.nodes[i]?)
    (hidx2 : t2.nodes[idx]? = some newIdxNode)
    (hb : newIdxNode.branch_id = (getNode t idx).branch_id)
    (hp : newIdxNode.parent_id = (getNode t idx).parent_id)
    {m : BranchNode} (hm : m ∈ t.nodes) :
    ∃ m2 ∈ t2.nodes, m2.branch_id = m.branch_id ∧ m2.parent_id = m.parent_id ∧
      (m2.children = m.children ∨ m = getNode t idx) := by
  obtain ⟨j, hj⟩ := mem_getElem? hm
  have hjlt : j < t.nodes.length := lt_of_getElem? hj
  by_cases hji : j = idx
  · subst hji
    have hmold : m = getNode t j := by
      have := getElem?_getNode hjlt
      rw [hj] at this
      exact Option.some.inj this
    exact ⟨newIdxNode, List.getElem?_mem hidx2, by rw [hb, ← hmold],
      by rw [hp, ← hmold], Or.inr hmold⟩
  · have : t2.nodes[j]? = some m := by rw [hpres j hjlt hji, hj]
    exact ⟨m, List.getElem?_mem this, rfl, rfl, Or.inl rfl⟩

/-- The recursion loop preserves the tree invariant, provided the step
preserves it (under the step's own preconditions), the step is local, and
the loop is pointed at in-range, still-unexpanded nodes with distinct
indices whose stored FENs parse back to the boards supplied. -/
theorem expandRecurseLoop_master (e : WhatifEnv Pos Mv)
    (step : BranchTree → Nat → Pos → BranchConfig → Nat → BranchTree × Nat)
    (cfg : BranchConfig) (hsb : StepBasic cfg.node_budget step)
    (hsm : ∀ t idx b rank k, idx < t.nodes.length → (getNode t idx).children = [] →
      (HRT e → e.fromFen (getNode t idx).fen = some b) →
      TreeInv e cfg t → t.total_nodes = t.nodes.length →
      TreeInv e cfg (step t idx b (deriveChildConfig cfg rank) k).1) :
    ∀ (l : List (Nat × Pos)) (rank : Nat) (t : BranchTree) (k : Nat),
      (∀ ci ∈ l, ci.1 < t.nodes.length ∧ (getNode t ci.1).children = [] ∧
        (HRT e → e.fromFen (getNode t ci.1).fen = some ci.2)) →
      (l.map Prod.fst).Nodup →
      TreeInv e cfg t → t.total_nodes = t.nodes.length →
      TreeInv e cfg (expandRecurseLoop step cfg l rank t k).1 := by
  intro l
  induction l with
  | nil =>
    intro rank t k _ _ hInv _
    exact hInv
  | cons ci rest ih =>
    intro rank t k hl hnd hInv hlen
    rcases hstep : step t ci.1 ci.2 (deriveChildConfig cfg rank) k with ⟨t1, k1⟩
    have heq : expandRecurseLoop step cfg (ci :: rest) rank t k =
        expandRecurseLoop step cfg rest (rank + 1) t1 k1 := by
      simp only [expandRecurseLoop]
      rw [hstep]
    rw [heq]
    obtain ⟨hci1, hci2, hci3⟩ := hl ci (List.mem_cons_self ci rest)
    have hInv1 : TreeInv e cfg t1 := by
      have := hsm t ci.1 ci.2 rank k hci1 hci2 hci3 hInv hlen
      rw [hstep] at this
      exact this
    have hbasic := hsb t ci.1 ci.2 (deriveChildConfig cfg rank) k
      (deriveChildConfig_node_budget cfg rank)
    rw [hstep] at hbasic
    dsimp only at hbasic
    obtain ⟨hb1, hb2, hb3, _⟩ := hbasic
    have hnd2 : ci.1 ∉ rest.map Prod.fst ∧ (rest.map Prod.fst).Nodup := by
      simpa [List.nodup_cons] using hnd
    refine ih (rank + 1) t1 k1 ?_ hnd2.2 hInv1 (hb3 hlen)
    intro cj hcj
    obtain ⟨hcj1, hcj2, hcj3⟩ := hl cj (List.mem_cons_of_mem ci hcj)
    have hne : cj.1 ≠ ci.1 := by
      intro hcon
      exact hnd2.1 (hcon ▸ List.mem_map_of_mem Prod.fst hcj)
    have hpres : t1.nodes[cj.1]? = t.nodes[cj.1]? := hb2 cj.1 hcj1 hne
    have hgn : getNode t1 cj.1 = getNode t cj.1 := by
      unfold getNode
      rw [hpres]
    exact ⟨by omega, by rw [hgn]; exact hcj2, by rw [hgn]; exact hcj3⟩

/-- `expand_node` preserves the tree invariant when pointed at an in-range
node whose children have not yet been assigned and whose stored FEN parses
back to the supplied board. -/
theorem expand_node_master (e : WhatifEnv Pos Mv) :
    ∀ (fuel : Nat) (t : BranchTree) (idx : Nat) (board : Pos) (cfg : BranchConfig) (k : Nat),
      idx < t.nodes.length →
      (getNode t idx).children = [] →
      (HRT e → e.fromFen (getNode t idx).fen = some board) →
      TreeInv e cfg t →
      t.total_nodes = t.nodes.length →
      TreeInv e cfg (expand_node e fuel t idx board cfg k).1 := by
  intro fuel
  induction fuel with
  | zero =>
    intro t idx board cfg k _ _ _ hInv _
    exact hInv
  | succ fuel ih =>
    intro t idx board cfg k hidx hchil hfen hInv hlen
    by_cases h1 : cfg.max_depth ≤ (getNode t idx).depth
    · have heq : expand_node e (fuel + 1) t idx board cfg k = (t, k) := by
        simp only [expand_node, if_pos h1]
      rw [heq]
      exact hInv
    · by_cases h2 : cfg.node_budget ≤ t.total_nodes
      · have heq : expand_node e (fuel + 1) t idx board cfg k = (t, k) := by
          simp only [expand_node, if_neg h1, if_pos h2]
        rw [heq]
        exact hInv
      · by_cases h3 : (getNode t idx).is_terminal = true
        · have heq : expand_node e (fuel + 1) t idx board cfg k = (t, k) := by
            simp only [expand_node, if_neg h1, if_neg h2, if_pos h3]
          rw [heq]
          exact hInv
        · rcases hcl : expandChildrenLoop e cfg board (getNode t idx).branch_id
              (getNode t idx).eval_cp (getNode t idx).depth
              ((rank_moves e board cfg).take (min (rank_moves e board cfg).length cfg.width))
              0 t k with ⟨t1, k1, cis⟩
          set cids : List String := cis.map (fun ci => (getNode t1 ci.1).branch_id) with hcids
          set t2 : BranchTree :=
            { t1 with nodes := t1.nodes.set idx ({ getNode t1 idx with children := cids }) }
            with ht2def
          have heq : expand_node e (fuel + 1) t idx board cfg k =
              expandRecurseLoop (fun ta i b c ka => expand_node e fuel ta i b c ka)
                cfg cis 0 t2 k1 := by
            simp only [expand_node, if_neg h1, if_neg h2, if_neg h3]
            rw [hcl]
          rw [heq]
          have CL := expandChildrenLoop_spec e cfg board (getNode t idx).branch_id
            (getNode t idx).eval_cp (getNode t idx).depth
            ((rank_moves e board cfg).take (min (rank_moves e board cfg).length cfg.width))
            0 t k
          rw [hcl] at CL
          obtain ⟨Cp, Clm, Ctl, Ctb, Ccl, Cnd, Cms, Csj, Cff⟩ := CL
          dsimp only at Cp Clm Ctl Ctb Ccl Cnd Cms Csj Cff
          have hg1idx : getNode t1 idx = getNode t idx := by
            unfold getNode
            rw [Cp idx hidx]
          have ht2n : t2.nodes = t1.nodes.set idx ({ getNode t idx with children := cids }) := by
            rw [ht2def, hg1idx]
          have ht2t : t2.total_nodes = t1.total_nodes := rfl
          clear_value t2
          have ht2len : t2.nodes.length = t1.nodes.length := by
            rw [ht2n]
            simp
          have hidx2 : t2.nodes[idx]? = some ({ getNode t idx with children := cids }) := by
            rw [ht2n]
            exact List.getElem?_set_self (by omega)
          have hpres2 : ∀ i, i < t1.nodes.length → i ≠ idx → t2.nodes[i]? = t1.nodes[i]? := by
            intro i _ hne
            rw [ht2n]
            exact List.getElem?_set_ne (fun hcon => hne hcon.symm)
          have hpres20 : ∀ i, i < t.nodes.length → i ≠ idx → t2.nodes[i]? = t.nodes[i]? := by
            intro i hi hne
            rw [hpres2 i (by omega) hne]
            exact Cp i hi
          -- characterize the nodes of t2
          have hchar : ∀ i n, t2.nodes[i]? = some n →
              (i = idx ∧ n = { getNode t idx with children := cids }) ∨
              (i ≠ idx ∧ i < t.nodes.length ∧ n ∈ t.nodes) ∨
              (t.nodes.length ≤ i ∧ ∃ cb, (i, cb) ∈ cis ∧ t1.nodes[i]? = some n) := by
            intro i n hi
            by_cases hii : i = idx
            · subst hii
              rw [hidx2] at hi
              exact Or.inl ⟨rfl, (Option.some.inj hi).symm⟩
            · by_cases hlt : i < t.nodes.length
              · refine Or.inr (Or.inl ⟨hii, hlt, ?_⟩)
                rw [hpres20 i hlt hii] at hi
                exact List.getElem?_mem hi
              · push_neg at hlt
                have hi1 : t1.nodes[i]? = some n := by
                  rw [← hpres2 i ?_ hii]
                  · exact hi
                  · have := lt_of_getElem? hi
                    omega
                obtain ⟨cb, hcb⟩ := Csj i hlt (lt_of_getElem? hi1)
                exact Or.inr (Or.inr ⟨hlt, cb, hcb, hi1⟩)
          obtain ⟨hIA, hIB, hIF⟩ := hInv
          -- IntegrityA for t2
          have hIA2 : IntegrityA t2 := by
            intro n hn cid hcid
            obtain ⟨i, hi⟩ := mem_getElem? hn
            rcases hchar i n hi with ⟨_, hval⟩ | ⟨_, _, hmem⟩ | ⟨hge, cb, hcis, hval⟩
            · subst hval
              simp only [hcids, List.mem_map] at hcid
              obtain ⟨ci, hci, hcide⟩ := hcid
              obtain ⟨_, _, nd, hnd, _, _, hndp, _⟩ := Cms ci hci
              have hndg : getNode t1 ci.1 = nd := by
                unfold getNode
                rw [hnd]
                rfl
              have hnd2 : t2.nodes[ci.1]? = some nd := by
                rw [hpres2 ci.1 (lt_of_getElem? hnd) ?_]
                · exact hnd
                · have := (Cms ci hci).1
                  omega
              exact ⟨nd, List.getElem?_mem hnd2, by rw [← hcide, hndg], by rw [hndp]⟩
            · obtain ⟨m, hm, hmb, hmp⟩ := hIA n hmem cid hcid
              obtain ⟨m2, hm2, hm2b, hm2p, _⟩ := lift_mem hidx hpres20 hidx2 rfl rfl hm
              exact ⟨m2, hm2, by rw [hm2b, hmb], by rw [hm2p, hmp]⟩
            · obtain ⟨_, _, nd, hnd, _, hndc, _, _⟩ := Cms (i, cb) hcis
              have : n = nd := by
                rw [hval] at hnd
                exact Option.some.inj hnd
              rw [this, hndc] at hcid
              cases hcid
          -- IntegrityB for t2
          have hIB2 : IntegrityB t2 := by
            intro n hn pid2 hpid
            obtain ⟨i, hi⟩ := mem_getElem? hn
            rcases hchar i n hi with ⟨_, hval⟩ | ⟨_, _, hmem⟩ | ⟨hge, cb, hcis, hval⟩
            · have hold : (getNode t idx) ∈ t.nodes := List.getElem?_mem (getElem?_getNode hidx)
              have hpid0 : (getNode t idx).parent_id = some pid2 := by
                rw [hval] at hpid
                exact hpid
              obtain ⟨m, hm, hmb, hmc⟩ := hIB (getNode t idx) hold pid2 hpid0
              obtain ⟨m2, hm2, hm2b, _, hm2c⟩ := lift_mem hidx hpres20 hidx2 rfl rfl hm
              refine ⟨m2, hm2, by rw [hm2b, hmb], ?_⟩
              have hnb : n.branch_id = (getNode t idx).branch_id := by rw [hval]
              rcases hm2c with hsame | hisold
              · rw [hsame, hnb]
                exact hmc
              · rw [hisold, hchil] at hmc
                cases hmc
            · obtain ⟨m, hm, hmb, hmc⟩ := hIB n hmem pid2 hpid
              obtain ⟨m2, hm2, hm2b, _, hm2c⟩ := lift_mem hidx hpres20 hidx2 rfl rfl hm
              refine ⟨m2, hm2, by rw [hm2b, hmb], ?_⟩
              rcases hm2c with hsame | hisold
              · rw [hsame]
                exact hmc
              · rw [hisold, hchil] at hmc
                cases hmc
            · obtain ⟨_, _, nd, hnd, _, _, hndp, _⟩ := Cms (i, cb) hcis
              have hneq : n = nd := by
                rw [hval] at hnd
                exact Option.some.inj hnd
              have hpid2 : pid2 = (getNode t idx).branch_id := by
                rw [hneq, hndp] at hpid
                exact (Option.some.inj hpid).symm
              refine ⟨{ getNode t idx with children := cids }, List.getElem?_mem hidx2,
                by rw [hpid2], ?_⟩
              have : (getNode t1 i).branch_id ∈ cids := by
                rw [hcids]
                exact List.mem_map_of_mem _ hcis
              have hg : getNode t1 i = nd := by
                unfold getNode
                rw [hnd]
                rfl
              rw [hneq, ← hg]
              exact this
          -- FenWidthDepth for t2
          have hIF2 : FenWidthDepth e cfg t2 := by
            intro hrt n hn
            obtain ⟨i, hi⟩ := mem_getElem? hn
            rcases hchar i n hi with ⟨_, hval⟩ | ⟨_, _, hmem⟩ | ⟨hge, cb, hcis, hval⟩
            · obtain ⟨p, hp, hrest⟩ := hIF hrt (getNode t idx)
                (List.getElem?_mem (getElem?_getNode hidx))
              have hpb : p = board := by
                have := hfen hrt
                rw [hp] at this
                exact Option.some.inj this
              refine ⟨board, by rw [hval]; exact hfen hrt, fun hsd => ⟨?_, ?_⟩⟩
              · have hc1 : n.children.length = cis.length := by
                  rw [hval]
                  simp [hcids]
                have hc2 := Ccl
                have hc3 : ((rank_moves e board cfg).take
                    (min (rank_moves e board cfg).length cfg.width)).length =
                    min (min (rank_moves e board cfg).length cfg.width)
                      (rank_moves e board cfg).length := List.length_take _ _
                have hc4 := length_rank_moves e board cfg
                omega
              · have := (hrest hsd).2
                rw [hval]
                dsimp only
                exact this
            · obtain ⟨p, hp, hrest⟩ := hIF hrt n hmem
              exact ⟨p, hp, hrest⟩
            · obtain ⟨_, _, nd, hnd, hndf, hndc, _, hndd⟩ := Cms (i, cb) hcis
              have hneq : n = nd := by
                rw [hval] at hnd
                exact Option.some.inj hnd
              refine ⟨cb, by rw [hneq, hndf]; exact hrt cb, fun hsd => ⟨?_, ?_⟩⟩
              · rw [hneq, hndc]
                exact Nat.zero_le _
              · rw [hneq, hndd]
                omega
          -- recursion preserves the invariant
          have hsb : StepBasic cfg.node_budget
              (fun ta i b c ka => expand_node e fuel ta i b c ka) := by
            intro ta ia ba ca ka hca
            obtain ⟨j1, j2, j3, j4⟩ := expand_node_basic e fuel ta ia ba ca ka
            rw [hca] at j4
            exact ⟨j1, j2, j3, j4⟩
          refine expandRecurseLoop_master e _ cfg hsb ?_ cis 0 t2 k1 ?_ Cnd
            ⟨hIA2, hIB2, hIF2⟩ ?_
          · intro ta ia ba ra ka p1 p2 p3 p4 p5
            have := ih ta ia ba (deriveChildConfig cfg ra) ka p1 p2 p3
              ((treeInv_derive_iff e cfg ra ta).mpr p4) p5
            exact (treeInv_derive_iff e cfg ra _).mp this
          · intro ci hci
            obtain ⟨q1, q2, nd, hnd, hndf, hndc, _, _⟩ := Cms ci hci
            have hnei : ci.1 ≠ idx := by omega
            have hval2 : t2.nodes[ci.1]? = some nd := by
              rw [hpres2 ci.1 q2 hnei]
              exact hnd
            have hgn2 : getNode t2 ci.1 = nd := by
              unfold getNode
              rw [hval2]
              rfl
            refine ⟨by omega, by rw [hgn2]; exact hndc, ?_⟩
            intro hrt
            rw [hgn2, hndf]
            exact hrt ci.2
          · rw [ht2t, ht2len]
            exact Ctl hlen

/-- Everything `generate_branch_tree` guarantees about a produced tree:
the invariant bundle holds, the recorded total equals the arena size, the
total never exceeds `max 1 node_budget` (the root is pushed before any
budget check), and the arena is nonempty. -/
theorem generate_branch_tree_spec (e : WhatifEnv Pos Mv) (fen : String) (cfg : BranchConfig)
    (t : BranchTree) (h : generate_branch_tree e fen cfg = some t) :
    TreeInv e cfg t ∧ t.total_nodes = t.nodes.length ∧
      t.total_nodes ≤ max 1 cfg.node_budget ∧ 0 < t.nodes.length := by
  unfold generate_branch_tree at h
  rcases hf : e.fromFen fen with _ | rb
  · rw [hf] at h
    cases h
  · rw [hf] at h
    dsimp only at h
    set R : BranchNode :=
      { branch_id := "root", fen := fen, move_uci := none, depth := 0,
        eval_cp := e.evaluateBoard rb, phase := e.classifyPhase rb,
        piece_count := e.countPieces rb, is_terminal := (e.legalMoves rb).isEmpty,
        terminal_reason := terminal_reason e rb, parent_id := none, children := [],
        fork_id := "fork-root" } with hR
    set T1 : BranchTree :=
      { root_fen := fen, nodes := [R], config := cfg, total_nodes := 1,
        max_depth_reached := 0, principal_variation := [] } with hT1
    clear_value R T1
    rcases hex : expand_node e (cfg.max_depth + 1) T1 0 rb cfg 1 with ⟨t2, k2⟩
    rw [hex] at h
    dsimp only at h
    have ht := Option.some.inj h
    subst ht
    have hidx : 0 < T1.nodes.length := by rw [hT1]; simp
    have hroot : getNode T1 0 = R := by
      rw [hT1]
      rfl
    have hlen1 : T1.total_nodes = T1.nodes.length := by rw [hT1]; rfl
    have hInv1 : TreeInv e cfg T1 := by
      refine ⟨?_, ?_, ?_⟩
      · intro n hn cid hcid
        rw [hT1] at hn
        simp only [List.mem_singleton] at hn
        subst hn
        simp [hR] at hcid
      · intro n hn pid hpid
        rw [hT1] at hn
        simp only [List.mem_singleton] at hn
        subst hn
        simp [hR] at hpid
      · intro hrt n hn
        rw [hT1] at hn
        simp only [List.mem_singleton] at hn
        subst hn
        exact ⟨rb, by rw [hR]; exact hf, fun _ => ⟨by simp [hR], by simp [hR]⟩⟩
    have hM := expand_node_master e (cfg.max_depth + 1) T1 0 rb cfg 1 hidx
      (by rw [hroot, hR]) (fun _ => by rw [hroot, hR]; exact hf) hInv1 hlen1
    rw [hex] at hM
    dsimp only at hM
    have hB := expand_node_basic e (cfg.max_depth + 1) T1 0 rb cfg 1
    rw [hex] at hB
    dsimp only at hB
    obtain ⟨hB1, _, hB3, hB4⟩ := hB
    have hT1tot : T1.total_nodes = 1 := by rw [hT1]
    have hT1len : T1.nodes.length = 1 := by rw [hT1]; simp
    rw [hT1tot] at hB4
    rw [hT1len] at hB1
    refine ⟨hM, hB3 hlen1, ?_, ?_⟩
    · dsimp only
      omega
    · dsimp only
      omega

/-- Walking the principal variation from a childless node collects nothing,
whatever the fuel. -/
theorem extract_pv_aux_nil (t : BranchTree) :
    ∀ (fuel idx : Nat), (getNode t idx).children = [] → extract_pv_aux t fuel idx = [] := by
  intro fuel idx h
  cases fuel with
  | zero => rfl
  | succ f => simp only [extract_pv_aux, h]

/-! ## The claims -/

/-- C1 (amended): for every FEN string that parses to a valid position and
every `BranchConfig` `C` with `C.node_budget + C.width ≥ 1` — in
particular, any config with a positive budget — the produced tree
satisfies `total_nodes ≤ C.node_budget + C.width`.  (The root node is
pushed before any budget check, so with `node_budget = 0` and `width = 0`
the total is 1 and the original bound fails; see the counterexample.) -/
theorem c1_total_nodes_le_budget_plus_width (e : WhatifEnv Pos Mv) (fen : String)
    (cfg : BranchConfig) (t : BranchTree) (h : generate_branch_tree e fen cfg = some t)
    (hpos : 1 ≤ cfg.node_budget + cfg.width) :
    t.total_nodes ≤ cfg.node_budget + cfg.width := by
  obtain ⟨_, _, hb, _⟩ := generate_branch_tree_spec e fen cfg t h
  omega

/-- C1, counterexample to the claim as stated: with `node_budget = 0` and
`width = 0` the tree still holds the root node, so
`total_nodes = 1 > node_budget + width`. -/
theorem c1_counterexample :
    ∃ t, generate_branch_tree toyWE "" cfgC1 = some t ∧
      cfgC1.node_budget + cfgC1.width < t.total_nodes := by
  refine ⟨tC1, rfl, ?_⟩
  decide

/-- C1, witness: a run with a positive budget obeys the bound. -/
theorem c1_witness : tC2.total_nodes ≤ cfgC2.node_budget + cfgC2.width :=
  c1_total_nodes_le_budget_plus_width toyWE "" cfgC2 tC2 rfl (by decide)

/-- C2 (confirmed): in every produced tree, referential integrity holds in
both directions — every id in a node's `children` resolves to a node whose
`parent_id` is that node's `branch_id`, and every non-root node's
`parent_id` resolves to a node whose `children` contains its
`branch_id`. -/
theorem c2_referential_integrity (e : WhatifEnv Pos Mv) (fen : String)
    (cfg : BranchConfig) (t : BranchTree) (h : generate_branch_tree e fen cfg = some t) :
    IntegrityA t ∧ IntegrityB t := by
  obtain ⟨⟨ha, hb, _⟩, _, _, _⟩ := generate_branch_tree_spec e fen cfg t h
  exact ⟨ha, hb⟩

/-- C2, witness: both directions checked on a concrete three-node tree. -/
theorem c2_witness : IntegrityA tC2 ∧ IntegrityB tC2 :=
  c2_referential_integrity toyWE "" cfgC2 tC2 rfl

/-- C6 (confirmed): with `selective_deepening = false`, every node of a
produced tree has depth at most `config.max_depth` and at most
`min config.width legalMoveCount` children, where `legalMoveCount` counts
the legal moves of the position its FEN denotes.  The oracle must satisfy
the FEN round-trip law (true of the real `chess` crate). -/
theorem c6_flat_width_depth_bound (e : WhatifEnv Pos Mv) (hrt : HRT e) (fen : String)
    (cfg : BranchConfig) (t : BranchTree) (hsd : cfg.selective_deepening = false)
    (h : generate_branch_tree e fen cfg = some t) :
    ∀ n ∈ t.nodes, n.depth ≤ cfg.max_depth ∧
      ∃ p, e.fromFen n.fen = some p ∧
        n.children.length ≤ min cfg.width (e.legalMoves p).length := by
  obtain ⟨⟨_, _, hF⟩, _, _, _⟩ := generate_branch_tree_spec e fen cfg t h
  intro n hn
  obtain ⟨p, hp, hrest⟩ := hF hrt n hn
  obtain ⟨hw, hd⟩ := hrest hsd
  exact ⟨hd, p, hp, hw⟩

/-- C6, witness: the bound checked on the root node of a concrete width-1
run. -/
theorem c6_witness :
    (tC6.nodes.headD default).depth ≤ cfgC6.max_depth ∧
      ∃ p, toyWE.fromFen (tC6.nodes.headD default).fen = some p ∧
        (tC6.nodes.headD default).children.length ≤
          min cfgC6.width (toyWE.legalMoves p).length :=
  c6_flat_width_depth_bound toyWE toyWE_roundtrip "" cfgC6 tC6 rfl rfl
    (tC6.nodes.headD default) (by decide)

/-- C9 (confirmed): principal-variation extraction collects nothing from a
node without children — at every walk state, whatever the fuel — and a
tree built with `max_depth = 0` has an empty principal variation. -/
theorem c9_principal_variation (e : WhatifEnv Pos Mv) :
    (∀ (t : BranchTree) (fuel idx : Nat), (getNode t idx).children = [] →
      extract_pv_aux t fuel idx = []) ∧
    (∀ (fen : String) (cfg : BranchConfig) (t : BranchTree), cfg.max_depth = 0 →
      generate_branch_tree e fen cfg = some t → t.principal_variation = []) := by
  refine ⟨extract_pv_aux_nil, ?_⟩
  intro fen cfg t hmd h
  unfold generate_branch_tree at h
  rcases hf : e.fromFen fen with _ | rb
  · rw [hf] at h
    cases h
  · rw [hf] at h
    dsimp only at h
    set R : BranchNode :=
      { branch_id := "root", fen := fen, move_uci := none, depth := 0,
        eval_cp := e.evaluateBoard rb, phase := e.classifyPhase rb,
        piece_count := e.countPieces rb, is_terminal := (e.legalMoves rb).isEmpty,
        terminal_reason := terminal_reason e rb, parent_id := none, children := [],
        fork_id := "fork-root" } with hR
    set T1 : BranchTree :=
      { root_fen := fen, nodes := [R], config := cfg, total_nodes := 1,
        max_depth_reached := 0, principal_variation := [] } with hT1
    clear_value R T1
    have hroot : getNode T1 0 = R := by
      rw [hT1]
      rfl
    have hdep : (getNode T1 0).depth = 0 := by rw [hroot, hR]
    have hex : expand_node e (cfg.max_depth + 1) T1 0 rb cfg 1 = (T1, 1) := by
      simp only [expand_node]
      rw [if_pos (show cfg.max_depth ≤ (getNode T1 0).depth by omega)]
    rw [hex] at h
    dsimp only at h
    have ht := Option.some.inj h
    subst ht
    show extract_pv T1 = []
    unfold extract_pv
    exact extract_pv_aux_nil T1 _ 0 (by rw [hroot, hR])

/-- C9, witness: nothing is collected from a childless node, and a
`max_depth = 0` run has an empty principal variation. -/
theorem c9_witness :
    extract_pv_aux (default : BranchTree) 3 0 = [] ∧ tC9.principal_variation = [] :=
  ⟨(c9_principal_variation toyWE).1 default 3 0 (by decide),
    (c9_principal_variation toyWE).2 "" cfgC9 tC9 rfl rfl⟩

/-- C10 (confirmed): with `node_budget ≥ 1`, the total never exceeds the
budget itself — the advisory `+ width` slack of the spec is never used,
because the budget is re-checked before each child is appended — and
`total_nodes` always equals the length of the `nodes` vector. -/
theorem c10_total_nodes_le_budget (e : WhatifEnv Pos Mv) (fen : String)
    (cfg : BranchConfig) (t : BranchTree) (h : generate_branch_tree e fen cfg = some t)
    (hpos : 1 ≤ cfg.node_budget) :
    t.total_nodes ≤ cfg.node_budget ∧ t.total_nodes = t.nodes.length := by
  obtain ⟨_, hlen, hb, _⟩ := generate_branch_tree_spec e fen cfg t h
  exact ⟨by omega, hlen⟩

/-- C10, witness: a run against a budget of 4 stays within it, with the
count matching the arena. -/
theorem c10_witness : tC10.total_nodes ≤ cfgC10.node_budget ∧ tC10.total_nodes = tC10.nodes.length :=
  c10_total_nodes_le_budget toyWE "" cfgC10 tC10 rfl (by decide)

/-- C7 (amended): during the expansion of a node that has passed the
stopping conditions (depth below `max_depth`, total below `node_budget`,
not terminal), whose position has at least one legal move, **and with
`config.width ≥ 1`**, the node receives at least one child: the rank-0
candidate is taken unconditionally — the pruning rule only fires for
`rank > 0`, so the best candidate survives any evaluation swing.  (With
`width = 0` no candidate is ever taken, so the unqualified claim fails;
see the counterexample.) -/
theorem c7_rank0_never_pruned (e : WhatifEnv Pos Mv) :
    ∀ (fuel : Nat) (t : BranchTree) (idx : Nat) (board : Pos) (cfg : BranchConfig) (k : Nat),
      0 < fuel →
      idx < t.nodes.length →
      (getNode t idx).depth < cfg.max_depth →
      t.total_nodes < cfg.node_budget →
      (getNode t idx).is_terminal = false →
      e.legalMoves board ≠ [] →
      1 ≤ cfg.width →
      (getNode (expand_node e fuel t idx board cfg k).1 idx).children ≠ [] := by
  intro fuel t idx board cfg k hf hidx hd hb hterm hl hw
  obtain ⟨fuel, rfl⟩ : ∃ f, fuel = f + 1 := ⟨fuel - 1, by omega⟩
  have h1 : ¬(cfg.max_depth ≤ (getNode t idx).depth) := by omega
  have h2 : ¬(cfg.node_budget ≤ t.total_nodes) := by omega
  have h3 : ¬((getNode t idx).is_terminal = true) := by
    rw [hterm]
    simp
  rcases hcl : expandChildrenLoop e cfg board (getNode t idx).branch_id
      (getNode t idx).eval_cp (getNode t idx).depth
      ((rank_moves e board cfg).take (min (rank_moves e board cfg).length cfg.width))
      0 t k with ⟨t1, k1, cis⟩
  set cids : List String := cis.map (fun ci => (getNode t1 ci.1).branch_id) with hcidsdef
  set t2 : BranchTree :=
    { t1 with nodes := t1.nodes.set idx ({ getNode t1 idx with children := cids }) }
    with ht2def
  have heq : expand_node e (fuel + 1) t idx board cfg k =
      expandRecurseLoop (fun ta i b c ka => expand_node e fuel ta i b c ka)
        cfg cis 0 t2 k1 := by
    simp only [expand_node, if_neg h1, if_neg h2, if_neg h3]
    rw [hcl]
  rw [heq]
  have CL := expandChildrenLoop_spec e cfg board (getNode t idx).branch_id
    (getNode t idx).eval_cp (getNode t idx).depth
    ((rank_moves e board cfg).take (min (rank_moves e board cfg).length cfg.width))
    0 t k
  rw [hcl] at CL
  obtain ⟨Cp, Clm, Ctl, Ctb, Ccl, Cnd, Cms, Csj, Cff⟩ := CL
  dsimp only at Cp Clm Ctl Ctb Ccl Cnd Cms Csj Cff
  have ht2n : t2.nodes = t1.nodes.set idx ({ getNode t1 idx with children := cids }) := rfl
  clear_value t2
  have hcands : (rank_moves e board cfg).take
      (min (rank_moves e board cfg).length cfg.width) ≠ [] := by
    have hL : 0 < (rank_moves e board cfg).length := by
      rw [length_rank_moves]
      exact List.length_pos.mpr hl
    intro hcon
    have hle := congrArg List.length hcon
    rw [List.length_take] at hle
    simp only [List.length_nil] at hle
    omega
  have hcis : cis ≠ [] := Cff hcands hb rfl
  have hcids : cids ≠ [] := by
    rw [hcidsdef]
    simpa using hcis
  have hidx2 : t2.nodes[idx]? = some ({ getNode t1 idx with children := cids }) := by
    rw [ht2n]
    exact List.getElem?_set_self (by omega)
  have ht2len : t2.nodes.length = t1.nodes.length := by
    rw [ht2n]
    simp
  have hsb : StepBasic cfg.node_budget
      (fun ta i b c ka => expand_node e fuel ta i b c ka) := by
    intro ta ia ba ca ka hca
    obtain ⟨j1, j2, j3, j4⟩ := expand_node_basic e fuel ta ia ba ca ka
    rw [hca] at j4
    exact ⟨j1, j2, j3, j4⟩
  obtain ⟨R1, R2, R3, R4⟩ := expandRecurseLoop_basic _ cfg hsb cis 0 t2 k1
  have hnm : idx ∉ cis.map Prod.fst := by
    intro hcon
    obtain ⟨ci, hci, hfst⟩ := List.mem_map.mp hcon
    have := (Cms ci hci).1
    omega
  have hpv := R2 idx (by omega) hnm
  rw [hidx2] at hpv
  rw [getNode_of_getElem? hpv]
  dsimp only
  exact hcids

/-- C7, counterexample to the claim as stated: with `width = 0` the root
passes every stopping condition (depth `0 < 2`, total `1 < 10`, not
terminal) and its position (the toy position `0`, parsed from the empty
FEN) has a legal move, yet it receives no children. -/
theorem c7_counterexample :
    generate_branch_tree toyWE "" cfgC7 = some tC7 ∧
      (getNode tC7 0).depth < cfgC7.max_depth ∧
      tC7.total_nodes < cfgC7.node_budget ∧
      (getNode tC7 0).is_terminal = false ∧
      toyWE.legalMoves 0 ≠ [] ∧
      (getNode tC7 0).children = [] := by
  refine ⟨rfl, ?_, ?_, ?_, ?_, ?_⟩ <;> decide

/-- C7, witness: with `width = 1` the same expandable root does receive a
child. -/
theorem c7_witness :
    (getNode (expand_node toyWE 1 twC7 0 0 cfgC7w 1).1 0).children ≠ [] :=
  c7_rank0_never_pruned toyWE 1 twC7 0 0 cfgC7w 1 (by decide) (by decide) (by decide)
    (by decide) (by decide) (by decide) (by decide)

/-- C8 (amended): the config used to recurse into the child at position
`rank` of the appended-children list satisfies: a rank-0 child (or any
child when selective deepening is off) inherits the parent's config
unchanged; for `rank > 0` with selective deepening on, the child's
`max_depth` is the parent's reduced by `2 * rank` plies **floored at
zero** (`u8::saturating_sub`; the claim's "floored at the node's current
depth" is not what the code computes — see the counterexample), the
reduction being computed in `u8`, so exactly `2 * rank` for
`rank ≤ 127`; the child's `width` is floored at 1; budget, flag and
threshold are untouched. -/
theorem c8_derived_child_config (cfg : BranchConfig) (rank : Nat) :
    (cfg.selective_deepening = false ∨ rank = 0 → deriveChildConfig cfg rank = cfg) ∧
    (cfg.selective_deepening = true → 0 < rank → rank ≤ 127 →
      (deriveChildConfig cfg rank).max_depth = cfg.max_depth - 2 * rank ∧
      (deriveChildConfig cfg rank).width = max cfg.width 1 ∧
      (deriveChildConfig cfg rank).node_budget = cfg.node_budget ∧
      (deriveChildConfig cfg rank).selective_deepening = cfg.selective_deepening ∧
      (deriveChildConfig cfg rank).prune_threshold = cfg.prune_threshold) := by
  constructor
  · intro h
    unfold deriveChildConfig
    rcases h with h | h
    · rw [if_neg]
      simp [h]
    · rw [if_neg]
      simp [h]
  · intro hsd hr hr127
    have hmod : (2 * (rank % 256)) % 256 = 2 * rank := by omega
    unfold deriveChildConfig
    rw [if_pos ⟨hsd, hr⟩, hmod]
    exact ⟨rfl, rfl, rfl, rfl, rfl⟩

/-- C8, counterexample to the claim as stated: a node at depth 1 under
`max_depth = 2` with selective deepening on recurses into its rank-1 child
with effective `max_depth = 2 - 2 = 0`; the claimed floor at the node's
current depth would give `max (2 - 2) 1 = 1 ≠ 0`. -/
theorem c8_counterexample :
    (deriveChildConfig cfgC8 1).max_depth ≠ max (cfgC8.max_depth - 2 * 1) 1 := by
  decide

/-- C8, witness: both parts exercised — rank 0 inherits the config, and a
rank-1 recursion under the quick preset reduces `max_depth` by 2 with
width floored at 1. -/
theorem c8_witness :
    deriveChildConfig BranchConfig.quick 0 = BranchConfig.quick ∧
      (deriveChildConfig BranchConfig.quick 1).max_depth = BranchConfig.quick.max_depth - 2 * 1 ∧
      (deriveChildConfig BranchConfig.quick 1).width = max BranchConfig.quick.width 1 :=
  ⟨(c8_derived_child_config BranchConfig.quick 0).1 (Or.inr rfl),
    ((c8_derived_child_config BranchConfig.quick 1).2 rfl (by decide) (by decide)).1,
    ((c8_derived_child_config BranchConfig.quick 1).2 rfl (by decide) (by decide)).2.1⟩

/-- C3 (confirmed): when a `ChallengeOffered` event arrives while the
active-session count is at or above `max_concurrent_games`, the
orchestrator declines immediately and creates no session: the state is
returned unchanged and the result does not depend on the
challenge-acceptance predicate at all (it is universally quantified and
absent from the right-hand side), so the content-based rules are not
consulted.  Instantiating with `maxG = 1` and one active session gives the
claim's scenario. -/
theorem c3_capacity_decline (C : Type) (maxG : Nat) (shouldAccept : C → Bool)
    (cid : C → String) (st : OrchState) (c : C)
    (hcap : maxG ≤ st.active.length) :
    orchStep maxG shouldAccept cid st (.challenge c) = (st, [.declineChallenge (cid c)]) := by
  simp only [orchStep, if_pos hcap]

/-- C3, witness: with `maxConcurrentGames = 1`, one active session, and an
acceptance predicate that would accept everything, a second challenge is
declined and no second session appears. -/
theorem c3_witness :
    orchStep 1 (fun _ => true) (fun c => c) ⟨["g1"]⟩ (.challenge "c2") =
      (⟨["g1"]⟩, [.declineChallenge "c2"]) :=
  c3_capacity_decline String 1 (fun _ => true) (fun c => c) ⟨["g1"]⟩ "c2" (by decide)

/-- C4 (amended): a failed move submission after an incremental-state event
is never propagated — the step always continues (`cont`), the move is
submitted at most once (no retry) — but the first move made in direct
response to a full-state event behaves differently: a failed submission
there is propagated by the `?` operator, and `play_game` returns an error
(the session ends; the orchestrator's spawn wrapper logs it). -/
theorem c4_submit_failure_handling :
    (∀ (G B Mv : Type) (env : SessionEnv G B Mv) (w : Bool) (u : String)
      (st : SessionState G) (mvs : String),
      ∃ st2 acts, stepSession env w u false st (.gameState mvs "started") = (.cont st2, acts) ∧
        (acts.filter isSubmitCall).length ≤ 1) ∧
    (∀ (G B Mv : Type) (env : SessionEnv G B Mv) (w : Bool) (u wname bname : String)
      (st : SessionState G),
      lowerStr wname = lowerStr u →
      ∃ uci, stepSession env w u false st (.gameFull (some wname) (some bname)) =
        (StepOutcome.fail, [.submitMove uci])) := by
  constructor
  · intro G B Mv env w u st mvs
    have h0 : ¬(("started" : String) ≠ "started") := by simp
    simp only [stepSession]
    rw [if_neg h0]
    by_cases hmv : mvs = ""
    · rw [if_pos hmv]
      exact ⟨st, [], rfl, by simp⟩
    · rw [if_neg hmv]
      rcases hp : env.parseMove ((splitWhitespace mvs).getLast?.getD "") with _ | m
      · exact ⟨_, _, rfl, by simp [isSubmitCall]⟩
      · rcases ht : env.tryMove st.game m with _ | g <;> dsimp only
        · split
          · split
            · exact ⟨_, _, rfl, by simp⟩
            · refine ⟨_, _, rfl, ?_⟩
              rw [List.filter_append, List.length_append]
              split
              · split <;> simp [isSubmitCall]
              · simp [isSubmitCall]
          · exact ⟨_, _, rfl, by simp⟩
        · split
          · split
            · exact ⟨_, _, rfl, by simp⟩
            · refine ⟨_, _, rfl, ?_⟩
              rw [List.filter_append, List.length_append]
              split
              · split <;> simp [isSubmitCall]
              · simp [isSubmitCall]
          · exact ⟨_, _, rfl, by simp⟩
  · intro G B Mv env w u wname bname st h
    refine ⟨env.we.formatMove (env.chooseMove (env.currentPosition st.game)), ?_⟩
    simp [stepSession, h]

/-- C4, counterexample to the claim as stated: on the toy environment, the
first move after a full-state event (the bot is white) with a failing
submission makes the session step end in `fail` — `play_game` terminates
with an error instead of awaiting the next event. -/
theorem c4_counterexample :
    (stepSession toySE false "bot" false (initSession toySE "g")
      (.gameFull (some "Bot") (some "opp"))).1 = StepOutcome.fail := by
  decide

/-- C4, witness: a failing submission after an incremental-state event
continues with at most one submission attempt, and a failing first-move
submission after a full-state event fails the session. -/
theorem c4_witness :
    (∃ st2 acts, stepSession toySE false "bot" false (initSession toySE "g")
      (.gameState "x" "started") = (.cont st2, acts) ∧
        (acts.filter isSubmitCall).length ≤ 1) ∧
    (∃ uci, stepSession toySE false "bot" false (initSession toySE "g")
      (.gameFull (some "Bot") (some "opp")) = (StepOutcome.fail, [.submitMove uci])) :=
  ⟨c4_submit_failure_handling.1 Nat Nat Unit toySE false "bot" (initSession toySE "g") "x",
    c4_submit_failure_handling.2 Nat Nat Unit toySE false "bot" "Bot" "opp"
      (initSession toySE "g") (by decide)⟩

/-- C5 (confirmed): on an incremental-state event with a non-empty move
list whose newest move parses but fails to apply to the session's current
game, the session rebuilds by replaying the entire authoritative move list
from the initial position — skipping unparseable encodings and ignoring
inapplicable moves — and the step always continues (`cont`, never an
error), whatever the submission result; the resulting state holds exactly
the full-replay game. -/
theorem c5_divergence_recovery (G B Mv : Type) (env : SessionEnv G B Mv) (w : Bool)
    (u : String) (sub : Bool) (st : SessionState G) (mvs : String) (m : Mv)
    (hparse : env.parseMove ((splitWhitespace mvs).getLast?.getD "") = some m)
    (htry : env.tryMove st.game m = none)
    (hne : mvs ≠ "") :
    ∃ st2 acts, stepSession env w u sub st (.gameState mvs "started") = (.cont st2, acts) ∧
      st2.game = replayAll env (splitWhitespace mvs) := by
  have h0 : ¬(("started" : String) ≠ "started") := by simp
  simp only [stepSession]
  rw [if_neg h0, if_neg hne, hparse]
  dsimp only
  rw [htry]
  dsimp only

  split
  · split
    · exact ⟨_, _, rfl, rfl⟩
    · split <;> exact ⟨_, _, rfl, rfl⟩
  · exact ⟨_, _, rfl, rfl⟩

/-- C5, witness: the toy session at diverged position 2 receives the move
list `"x"`, whose newest move cannot be applied; the step continues and the
resulting game equals the full replay (position 1). -/
theorem c5_witness :
    ∃ st2 acts, stepSession toySE false "bot" true stC5 (.gameState "x" "started") =
      (.cont st2, acts) ∧ st2.game = replayAll toySE (splitWhitespace "x") :=
  c5_divergence_recovery Nat Nat Unit toySE false "bot" true stC5 "x" ()
    (by decide) (by decide) (by decide)

end Stonksfish
